import Mathlib

/-!
# Verification of the compression-detection core (`compression_detector.py`)

Shallow embedding of the decoders, the bit-stream primitive, the outcome
scoring pipeline and the best-candidate selection of
`src/backend/python_tools/compression_detector.py`, together with theorems
settling the frozen claims about them.

Blobs are modelled as `List Nat` (each element a byte value `0..255`; the
definitions mirror the Python operations, which act on `int`s, so no
byte-range hypothesis is baked in).  Python floats used for ratios and
scores are modelled as `ℚ`; the Shannon-entropy function (the only
irrational-valued computation) is passed as an explicit parameter
`H : List Nat → ℚ` where needed, since none of the claims depend on its
values.  Python functions that can raise are modelled as
`Except String (List Nat)`.
-/

namespace CompressionDetector

/-! ## Bit-stream reader (`class BitStream`)

State fields mirror `__init__`: `data`, `pos`, `bit_pos`, `current_byte`. -/

structure BitStream where
  data : List Nat
  pos : Nat
  bit_pos : Nat
  current_byte : Nat
  deriving Repr, DecidableEq

def BitStream.init (data : List Nat) : BitStream :=
  { data := data, pos := 0, bit_pos := 0, current_byte := 0 }

/-- `has_bits(count)`: `(pos * 8 + bit_pos + count) <= len(data) * 8`. -/
def BitStream.hasBits (s : BitStream) (count : Nat) : Bool :=
  decide (s.pos * 8 + s.bit_pos + count ≤ s.data.length * 8)

/-- `read_bit`: returns 0 without advancing at EOF; loads `data[pos]` into
`current_byte` (bumping `pos`) when `bit_pos == 0`; extracts bit
`(current_byte >> (7 - bit_pos)) & 1` and sets `bit_pos := (bit_pos+1) % 8`.
The `getD` default is unreachable: `hasBits 1` with `bit_pos = 0` forces
`pos < data.length`. -/
def BitStream.readBit (s : BitStream) : Nat × BitStream :=
  if s.hasBits 1 then
    if s.bit_pos = 0 then
      let cb := s.data.getD s.pos 0
      ((cb >>> (7 - s.bit_pos)) &&& 1,
        { s with pos := s.pos + 1, bit_pos := (s.bit_pos + 1) % 8, current_byte := cb })
    else
      ((s.current_byte >>> (7 - s.bit_pos)) &&& 1,
        { s with bit_pos := (s.bit_pos + 1) % 8 })
  else (0, s)

/-- Accumulator loop of `read_bits`: `result = (result << 1) | read_bit()`. -/
def BitStream.readBitsAux : Nat → Nat → BitStream → Nat × BitStream
  | 0, acc, s => (acc, s)
  | n + 1, acc, s =>
      let (b, s') := s.readBit
      BitStream.readBitsAux n ((acc <<< 1) ||| b) s'

def BitStream.readBits (s : BitStream) (count : Nat) : Nat × BitStream :=
  BitStream.readBitsAux count 0 s

/-- `peek_bits`: saves `pos`, `bit_pos`, `current_byte`, calls `read_bits`,
restores the three saved fields, and returns the read value. -/
def BitStream.peekBits (s : BitStream) (count : Nat) : Nat × BitStream :=
  let r := s.readBits count
  (r.1, { r.2 with pos := s.pos, bit_pos := s.bit_pos, current_byte := s.current_byte })

/-- States reachable from `BitStream.init data` by `read_bit` calls, together
with the number of bits actually consumed so far (`read_bit` consumes a bit
exactly when `has_bits(1)` held; `read_bits` is an iteration of `read_bit`,
and `peek_bits` restores the state, so closing under `read_bit` covers all
reachable cursor states). -/
inductive ReachableC (data : List Nat) : BitStream → Nat → Prop where
  | init : ReachableC data (BitStream.init data) 0
  | step {s : BitStream} {c : Nat} :
      ReachableC data s c →
      ReachableC data (s.readBit).2 (cond (s.hasBits 1) (c + 1) c)

/-! ## RLE (`decompress_rle`)

`while i < len(data) - 1:` consumes byte pairs `(count, value)`; a count of
0 means 256; a trailing unpaired byte is never examined and the function
never raises. -/

def decompressRle : List Nat → List Nat
  | count :: value :: rest =>
      List.replicate (if count = 0 then 256 else count) value ++ decompressRle rest
  | _ => []

/-! ## LZW (`decompress_lzw`)

The dictionary is the identity map on `0..255` plus the list `added` of
phrases appended so far (`dict_size = 256 + added.length`); codes are the
raw input bytes. -/

def lzwEntry (added : List (List Nat)) (w : List Nat) (k : Nat) :
    Except String (List Nat) :=
  if k < 256 + added.length then
    if k < 256 then .ok [k] else .ok (added.getD (k - 256) [])
  else if k = 256 + added.length then .ok (w ++ w.take 1)
  else .error ("Invalid LZW code: " ++ toString k)

def lzwLoop : List Nat → List Nat → List (List Nat) → List Nat →
    Except String (List Nat)
  | [], _, _, result => .ok result
  | k :: ks, w, added, result =>
      match lzwEntry added w k with
      | .error e => .error e
      | .ok entry => lzwLoop ks entry (added ++ [w ++ entry.take 1]) (result ++ entry)

def decompressLzw : List Nat → Except String (List Nat)
  | [] => .ok []
  | c :: rest => lzwLoop rest [c] [] [c]

/-! ## Canonical Huffman code generator (`_generate_canonical_huffman_codes`)

The table is the insertion-ordered list of `(symbol, code, length)` entries:
groups in ascending length order (Python's `sorted(length_groups.keys())`,
here realised as an ascending filtered range), symbols inside a group in
ascending order (`enumerate` produces them ascending and `sorted` keeps
that), `code += 1` per symbol and a single `code <<= 1` per group. -/

def presentSymbols (bit_lengths : List Nat) : List (Nat × Nat) :=
  bit_lengths.enum.filter fun p => decide (0 < p.2)

def generateCanonicalHuffmanCodes (bit_lengths : List Nat) :
    List (Nat × Nat × Nat) :=
  let present := presentSymbols bit_lengths
  let maxLen := present.foldl (fun m p => max m p.2) 0
  let lengths := (List.range (maxLen + 1)).filter fun len =>
    decide (0 < len) && present.any fun p => p.2 == len
  (lengths.foldl
    (fun (st : List (Nat × Nat × Nat) × Nat) len =>
      let group := (present.filter fun p => p.2 == len).map Prod.fst
      let st2 := group.foldl
        (fun (st : List (Nat × Nat × Nat) × Nat) sym =>
          (st.1 ++ [(sym, st.2, len)], st.2 + 1)) st
      (st2.1, st2.2 <<< 1))
    ([], 0)).1

/-- Kraft sum `Σ 2^(−L[i])` over the present symbols (`L[i] > 0`). -/
def kraftSum (bit_lengths : List Nat) : ℚ :=
  ((bit_lengths.filter fun len => decide (0 < len)).map
    fun len => (1 : ℚ) / 2 ^ len).sum

/-- `(c1, l1)` read as a bit string of length `l1` is a prefix of `(c2, l2)`
read as a bit string of length `l2`. -/
def isPrefixOfCode (c1 l1 c2 l2 : Nat) : Bool :=
  decide (l1 ≤ l2) && (c2 >>> (l2 - l1) == c1)

/-- No entry's bit string is a prefix of a different symbol's bit string. -/
def tableIsPrefixFree (table : List (Nat × Nat × Nat)) : Bool :=
  table.all fun e1 => table.all fun e2 =>
    (e1.1 == e2.1) || !(isPrefixOfCode e1.2.1 e1.2.2 e2.2.1 e2.2.2)

/-! ## Huffman decoders (`_decompress_huffman_{standard,canonical,simple}`)

The shared symbol-match loop scans the table in insertion order for the
first entry whose peeked bits equal its code (the standard variant skips
zero-length entries with `continue`).  Every table entry produced by the
generator or the simple-table parser has positive length, so each match
advances the cursor by at least one bit and the Python `while` makes at most
`8·len(data)` iterations; the fuel `8·len(data) + 8` therefore never runs
out on states the decoders reach (a hypothetical zero-length entry would
make the Python loop diverge — no claim concerns that case). -/

def findCodeMatch (skipZero : Bool) (table : List (Nat × Nat × Nat))
    (bs : BitStream) : Option (Nat × Nat) :=
  match table.find? (fun e =>
      (!skipZero || e.2.2 != 0) && ((bs.peekBits e.2.2).1 == e.2.1)) with
  | some e => some (e.1, e.2.2)
  | none => none

def huffDecodeLoop (skipZero : Bool) (table : List (Nat × Nat × Nat)) :
    Nat → BitStream → List Nat
  | 0, _ => []
  | fuel + 1, bs =>
      if bs.hasBits 1 then
        match findCodeMatch skipZero table bs with
        | some (sym, len) =>
            sym :: huffDecodeLoop skipZero table fuel (bs.readBits len).2
        | none => []
      else []

def huffmanStandard (data : List Nat) : Except String (List Nat) :=
  if data.length < 4 then .error "Too short for standard Huffman"
  else
    let table_size :=
      if data.getD 0 0 = 0 then min 256 (data.length - 1) else data.getD 0 0
    let code_lengths := (data.drop 1).take table_size
    let code_lengths := code_lengths ++ List.replicate (256 - code_lengths.length) 0
    let codes := generateCanonicalHuffmanCodes code_lengths
    .ok (huffDecodeLoop true codes (8 * data.length + 8)
      (BitStream.init (data.drop (table_size + 1))))

def huffmanCanonical (data : List Nat) : Except String (List Nat) :=
  if data.length < 2 then .error "Too short for canonical Huffman"
  else
    let sc0 := data.getD 0 0
    let sc1 := if sc0 = 0 then min 256 (data.length - 1) else sc0
    let symbol_count := if sc1 > 256 then 256 else sc1
    let bit_lengths := (data.drop 1).take symbol_count
    let codes := generateCanonicalHuffmanCodes bit_lengths
    .ok (huffDecodeLoop false codes (8 * data.length + 8)
      (BitStream.init (data.drop (symbol_count + 1))))

/-- `code = (code << 8) | data[pos + i]` over `byte_count` bytes. -/
def readCodeBytes (data : List Nat) (pos byte_count : Nat) : Nat :=
  (List.range byte_count).foldl
    (fun code i => (code <<< 8) ||| data.getD (pos + i) 0) 0

/-- Header-parse loop of the simple variant: for each symbol `0..255`, read
one length byte (skip the symbol when `0` or `> 24`), then `⌈len/8⌉` code
bytes big-endian; the two `break`s return the table and cursor as built so
far.  `remaining` counts down from 256, so the current symbol is
`256 - (remaining + 1)`. -/
def parseSimpleTable : Nat → Nat → List Nat → List (Nat × Nat × Nat) →
    List (Nat × Nat × Nat) × Nat
  | 0, pos, _, acc => (acc, pos)
  | remaining + 1, pos, data, acc =>
      if pos ≥ data.length then (acc, pos)
      else
        let sym := 256 - (remaining + 1)
        let bit_length := data.getD pos 0
        let pos1 := pos + 1
        if bit_length = 0 ∨ bit_length > 24 then
          parseSimpleTable remaining pos1 data acc
        else
          let byte_count := (bit_length + 7) / 8
          if pos1 + byte_count > data.length then (acc, pos1)
          else
            parseSimpleTable remaining (pos1 + byte_count) data
              (acc ++ [(sym, readCodeBytes data pos1 byte_count, bit_length)])

def huffmanSimple (data : List Nat) : Except String (List Nat) :=
  if data.length < 512 then .error "Too short for simple Huffman"
  else
    let tp := parseSimpleTable 256 0 data []
    if tp.1.isEmpty then .error "No valid Huffman codes found"
    else
      .ok (huffDecodeLoop false tp.1 (8 * data.length + 8)
        (BitStream.init (data.drop tp.2)))

def errMsg : Except String (List Nat) → Option String
  | .error e => some e
  | .ok _ => none

def failsTooShortStd (data : List Nat) : Bool :=
  errMsg (huffmanStandard data) == some "Too short for standard Huffman"

def failsTooShortCan (data : List Nat) : Bool :=
  errMsg (huffmanCanonical data) == some "Too short for canonical Huffman"

def failsTooShortSimple (data : List Nat) : Bool :=
  errMsg (huffmanSimple data) == some "Too short for simple Huffman"

/-! ## LZ77 (`decompress_lz77`)

One flag byte then up to 8 tokens: flag bit set (MSB first) = literal byte,
clear = reference `(offs_hi, offs_lo, len)` copied from
`len(result) - offset`; an invalid reference (`offset == 0` or
`offset > len(result)`) or truncated token breaks out of the current frame
only.  The inner counter `k+1` corresponds to Python's `i = 8 - (k+1)`, so
the examined bit is `(flag >> k) & 1`. -/

def lz77CopyLoop : Nat → Nat → List Nat → List Nat
  | 0, _, result => result
  | n + 1, start_pos, result =>
      if start_pos < result.length then
        lz77CopyLoop n (start_pos + 1) (result ++ [result.getD start_pos 0])
      else result

def lz77Inner : Nat → Nat → Nat → List Nat → List Nat → List Nat × Nat
  | 0, _, pos, _, result => (result, pos)
  | k + 1, flag, pos, data, result =>
      if pos ≥ data.length then (result, pos)
      else if (flag >>> k) &&& 1 = 1 then
        lz77Inner k flag (pos + 1) data (result ++ [data.getD pos 0])
      else if pos + 2 ≥ data.length then (result, pos)
      else
        let offset := (data.getD pos 0 <<< 8) ||| data.getD (pos + 1) 0
        let len := data.getD (pos + 2) 0
        if offset = 0 ∨ offset > result.length then (result, pos + 3)
        else
          lz77Inner k flag (pos + 3) data
            (lz77CopyLoop len (result.length - offset) result)

/-- Outer `while pos < len(data)` loop.  Each iteration consumes at least the
flag byte (`pos` strictly increases), so fuel `data.length` is never
exhausted before `pos` reaches the end. -/
def lz77Outer : Nat → Nat → List Nat → List Nat → List Nat
  | 0, _, _, result => result
  | fuel + 1, pos, data, result =>
      if pos < data.length then
        let step := lz77Inner 8 (data.getD pos 0) (pos + 1) data result
        lz77Outer fuel step.2 data step.1
      else result

def decompressLz77 (data : List Nat) : List Nat :=
  lz77Outer data.length 0 data []

/-! ## VLQ (`decompress_vlq`)

Inner loop accumulates `(byte & 0x7F) << shift` with `shift += 7`, breaking
when the continuation bit is clear or — only after accumulating — when
`shift > 28`; each decoded value is emitted via `to_bytes(4, 'little')`,
which raises `OverflowError: int too big to convert` for values `≥ 2^32`. -/

def vlqGroup : List Nat → Nat → Nat → Nat × List Nat
  | [], value, _ => (value, [])
  | b :: rest, value, shift =>
      let value := value ||| ((b &&& 0x7F) <<< shift)
      let shift := shift + 7
      if b &&& 0x80 = 0 then (value, rest)
      else if shift > 28 then (value, rest)
      else vlqGroup rest value shift

def toBytes4LE (value : Nat) : Except String (List Nat) :=
  if value < 2 ^ 32 then
    .ok [value % 256, value / 256 % 256, value / 256 ^ 2 % 256, value / 256 ^ 3 % 256]
  else .error "int too big to convert"

/-- Outer `while pos < len(data)` loop; each group consumes at least one
byte, so fuel `data.length` suffices. -/
def vlqOuter : Nat → List Nat → Except String (List Nat)
  | _, [] => .ok []
  | 0, _ :: _ => .ok []
  | fuel + 1, b :: rest =>
      let grp := vlqGroup (b :: rest) 0 0
      match toBytes4LE grp.1 with
      | .error e => .error e
      | .ok bytes =>
          match vlqOuter fuel grp.2 with
          | .error e => .error e
          | .ok tail => .ok (bytes ++ tail)

def decompressVlq (data : List Nat) : Except String (List Nat) :=
  vlqOuter data.length data

/-! ## Outcome model (`DecompressionResult`, validator, scorer, probe)

`validate_decompressed_data` messages carry formatted numbers in Python
(f-strings); only their fixed prefixes are modelled, since no claim depends
on the message text. -/

structure DecompressionResult where
  method : String
  success : Bool
  decompressed_size : Nat
  original_size : Nat
  compression_ratio : ℚ
  confidence : ℚ
  entropy_original : ℚ
  entropy_decompressed : ℚ
  checksum_valid : Bool
  validation_msg : String
  error : Option String
  decompressed_data : Option (List Nat)
  deriving Repr, DecidableEq

def validateDecompressedData (H : List Nat → ℚ) (data : List Nat)
    (original_size : Nat) : Bool × String :=
  if data.length = 0 then (false, "Empty output")
  else
    let ratio : ℚ :=
      if original_size > 0 then (data.length : ℚ) / original_size else 0
    if ratio > 100 then (false, "Suspicious expansion ratio")
    else if ratio < 1 / 2 then (false, "Suspicious compression ratio")
    else if H data < 1 then (false, "Entropy too low")
    else if ((data.count 0 : ℚ) / data.length) > 95 / 100 then
      (false, "Too many null bytes")
    else (true, "Validation passed")

def calculateConfidence (r : DecompressionResult) : ℚ :=
  if r.success = false then 0
  else
    let score : ℚ := 0
    let score := score +
      (if 3 / 2 ≤ r.compression_ratio ∧ r.compression_ratio ≤ 10 then 3 / 10
       else if 6 / 5 ≤ r.compression_ratio ∧ r.compression_ratio ≤ 15 then 3 / 20
       else 0)
    let entropy_diff := r.entropy_original - r.entropy_decompressed
    let score := score +
      (if entropy_diff > 1 then 3 / 10
       else if entropy_diff > 1 / 2 then 3 / 20
       else 0)
    let score := score + (if r.checksum_valid then 1 / 5 else 0)
    let score := score +
      (if 1000 ≤ r.decompressed_size ∧ r.decompressed_size ≤ 100000000 then 1 / 5
       else 0)
    min 1 score

/-- `test_decompression`: the `try` body on decoder success, the `except`
branch — with zeroed size/ratio/confidence, `checksum_valid=False` and the
failure text in `error` — when the decoder raises. -/
def testDecompression (H : List Nat → ℚ) (data : List Nat) (method : String)
    (decompress : List Nat → Except String (List Nat)) : DecompressionResult :=
  let original_size := data.length
  let entropy_original := H data
  match decompress data with
  | .ok decompressed =>
      let decompressed_size := decompressed.length
      let compression_ratio : ℚ :=
        if original_size > 0 then (decompressed_size : ℚ) / original_size else 0
      let v := validateDecompressedData H decompressed original_size
      let r : DecompressionResult :=
        { method := method, success := true,
          decompressed_size := decompressed_size, original_size := original_size,
          compression_ratio := compression_ratio, confidence := 0,
          entropy_original := entropy_original,
          entropy_decompressed := H decompressed,
          checksum_valid := v.1, validation_msg := v.2, error := none,
          decompressed_data := some decompressed }
      { r with confidence := calculateConfidence r }
  | .error e =>
      { method := method, success := false, decompressed_size := 0,
        original_size := original_size, compression_ratio := 0, confidence := 0,
        entropy_original := entropy_original, entropy_decompressed := 0,
        checksum_valid := false, validation_msg := "Decompression failed",
        error := some e, decompressed_data := none }

/-! ## Best-candidate selection (`analyze_file`, lines 1319–1330)

Python's `max(successful_results, key=lambda r: (r.confidence,
r.compression_ratio))` keeps the current maximum and replaces it only when a
later key compares strictly greater under tuple (lexicographic) comparison,
so the first of several equal maxima wins. -/

def lexLt (a b : ℚ × ℚ) : Prop :=
  a.1 < b.1 ∨ (a.1 = b.1 ∧ a.2 < b.2)

instance (a b : ℚ × ℚ) : Decidable (lexLt a b) :=
  inferInstanceAs (Decidable (a.1 < b.1 ∨ (a.1 = b.1 ∧ a.2 < b.2)))

def resultKey (r : DecompressionResult) : ℚ × ℚ :=
  (r.confidence, r.compression_ratio)

def pyMaxStep (acc r : DecompressionResult) : DecompressionResult :=
  if lexLt (resultKey acc) (resultKey r) then r else acc

/-- `[r for r in results if r.success and r.checksum_valid]`. -/
def qualifying (results : List DecompressionResult) :
    List DecompressionResult :=
  results.filter fun r => r.success && r.checksum_valid

def findBestResult (results : List DecompressionResult) :
    Option DecompressionResult :=
  match qualifying results with
  | [] => none
  | x :: xs => some (xs.foldl pyMaxStep x)

/-- `(best_method, best_ratio, best_confidence)` as set by `analyze_file`:
taken from the maximum when some outcome qualifies, `(None, 0, 0)`
otherwise. -/
def selectBest (results : List DecompressionResult) :
    Option String × ℚ × ℚ :=
  match qualifying results with
  | [] => (none, 0, 0)
  | x :: xs =>
      let best := xs.foldl pyMaxStep x
      (some best.method, best.compression_ratio, best.confidence)

/-- The registry entry `("rle", decompress_rle)` as a fallible decoder: the
Python function is total (its indexing is guarded by the loop condition), so
the adapter always returns `ok`. -/
def rleAdapter (data : List Nat) : Except String (List Nat) :=
  .ok (decompressRle data)

/-- Concrete qualifying outcome used to instantiate selection theorems. -/
def sampleOutcomeA : DecompressionResult :=
  { method := "zlib", success := true, decompressed_size := 2000,
    original_size := 1000, compression_ratio := 2, confidence := 1,
    entropy_original := 6, entropy_decompressed := 4, checksum_valid := true,
    validation_msg := "Validation passed", error := none,
    decompressed_data := none }

/-- A later outcome with the same `(confidence, ratio)` key as
`sampleOutcomeA`: the tie must go to the earlier entry. -/
def sampleOutcomeB : DecompressionResult :=
  { sampleOutcomeA with method := "rle" }

/-! # Theorems -/

lemma readBit_of_false {s : BitStream} (hb : s.hasBits 1 = false) :
    (s.readBit).2 = s := by
  simp [BitStream.readBit, hb]

lemma readBit_of_true_aligned {s : BitStream} (hb : s.hasBits 1 = true)
    (hz : s.bit_pos = 0) :
    (s.readBit).2 =
      { data := s.data, pos := s.pos + 1, bit_pos := 1,
        current_byte := s.data.getD s.pos 0 } := by
  simp [BitStream.readBit, hb, hz]

lemma readBit_of_true_mid {s : BitStream} (hb : s.hasBits 1 = true)
    (hz : ¬ s.bit_pos = 0) :
    (s.readBit).2 =
      { data := s.data, pos := s.pos, bit_pos := (s.bit_pos + 1) % 8,
        current_byte := s.current_byte } := by
  simp [BitStream.readBit, hb, hz]

lemma readBit_data (s : BitStream) : (s.readBit).2.data = s.data := by
  unfold BitStream.readBit
  split <;> [skip; rfl]
  split <;> rfl

lemma readBitsAux_data (n acc : Nat) (s : BitStream) :
    (BitStream.readBitsAux n acc s).2.data = s.data := by
  induction n generalizing acc s with
  | zero => rfl
  | succ n ih =>
      simp only [BitStream.readBitsAux]
      rw [ih]
      exact readBit_data s

/-- Cursor invariant for reachable states: `bit_pos` is the consumed count
mod 8, the cursor formula `pos*8 + bit_pos` overshoots the consumed count by
8 exactly when the cursor is mid-byte (the byte index is bumped eagerly when
a byte is loaded), and at most `8*(|blob|-1)+1` bits are ever consumed. -/
lemma reachC_invariant {data : List Nat} {s : BitStream} {c : Nat}
    (h : ReachableC data s c) :
    s.data = data ∧ s.bit_pos = c % 8 ∧
    s.pos * 8 + s.bit_pos = (if c % 8 = 0 then c else c + 8) ∧
    c ≤ 8 * (data.length - 1) + 1 := by
  induction h with
  | init =>
      refine ⟨rfl, rfl, ?_, ?_⟩ <;> simp [BitStream.init]
  | @step s c hr ih =>
      obtain ⟨hdata, hbp, hpos, hbound⟩ := ih
      cases hb : s.hasBits 1 with
      | false =>
          rw [readBit_of_false hb]
          simp only [hb, cond_false]
          exact ⟨hdata, hbp, hpos, hbound⟩
      | true =>
          have hle : s.pos * 8 + s.bit_pos + 1 ≤ s.data.length * 8 := by
            have h' := hb
            unfold BitStream.hasBits at h'
            exact of_decide_eq_true h'
          rw [hdata] at hle
          simp only [hb, cond_true]
          by_cases hz : s.bit_pos = 0
          · have hc0 : c % 8 = 0 := by omega
            rw [if_pos hc0] at hpos
            have hc1 : ¬ (c + 1) % 8 = 0 := by omega
            rw [readBit_of_true_aligned hb hz]
            refine ⟨hdata, ?_, ?_, ?_⟩
            · dsimp only
              omega
            · dsimp only
              rw [if_neg hc1]
              omega
            · omega
          · have hc0 : ¬ c % 8 = 0 := by omega
            rw [if_neg hc0] at hpos
            rw [readBit_of_true_mid hb hz]
            refine ⟨hdata, ?_, ?_, ?_⟩
            · dsimp only
              omega
            · dsimp only
              by_cases hc1 : (c + 1) % 8 = 0
              · rw [if_pos hc1]
                omega
              · rw [if_neg hc1]
                omega
            · omega

/-- C2, counterexample: on the one-byte blob `[0]`, `read_bit` succeeds once
(consuming one bit, `c = 1`), yet `has_bits(1)` is already false although
`c + 1 = 2 ≤ 8 = 8·|blob|` — so `has_bits(n)` is not equivalent to
`c + n ≤ 8·|blob|` with `c` the number of consumed bits, and the 8 bits of
the blob cannot all be read. -/
theorem C2_hasBits_counterexample :
    (BitStream.init [0]).hasBits 1 = true ∧
    ((BitStream.init [0]).readBit).2.hasBits 1 = false ∧
    1 + 1 ≤ 8 * ([0] : List Nat).length := by
  refine ⟨by decide, by decide, by decide⟩

/-- C2 (amended): for every reachable bit-stream state that has consumed `c`
bits, `has_bits(n)` is true iff `c + n ≤ 8·|blob|` when the cursor is
byte-aligned (`c ≡ 0 mod 8`) and iff `c + 8 + n ≤ 8·|blob|` otherwise,
because the byte index is bumped eagerly when a byte's first bit is read;
consequently at most `8·(|blob|−1) + 1` bits are ever consumed (the last 7
bits of the final byte are unreachable). -/
theorem C2_hasBits_consumed (data : List Nat) (s : BitStream) (c n : Nat)
    (h : ReachableC data s c) :
    (s.hasBits n = true ↔
      (if c % 8 = 0 then c + n ≤ 8 * data.length
       else c + 8 + n ≤ 8 * data.length)) ∧
    c ≤ 8 * (data.length - 1) + 1 := by
  obtain ⟨hdata, hbp, hpos, hbound⟩ := reachC_invariant h
  refine ⟨?_, hbound⟩
  unfold BitStream.hasBits
  rw [hdata, decide_eq_true_eq]
  by_cases hc : c % 8 = 0
  · rw [if_pos hc] at hpos ⊢
    omega
  · rw [if_neg hc] at hpos ⊢
    omega

/-- C2, witness: the state of `[0, 1]` after one successful `read_bit`
(`c = 1` bit consumed) instantiates the amended characterization. -/
theorem C2_hasBits_consumed_witness :
    (((BitStream.init [0, 1]).readBit).2.hasBits 4 = true ↔
      (if 1 % 8 = 0 then 1 + 4 ≤ 8 * ([0, 1] : List Nat).length
       else 1 + 8 + 4 ≤ 8 * ([0, 1] : List Nat).length)) ∧
    1 ≤ 8 * (([0, 1] : List Nat).length - 1) + 1 :=
  C2_hasBits_consumed [0, 1] _ 1 4 (ReachableC.step ReachableC.init)

lemma readBits_data (s : BitStream) (n : Nat) :
    (s.readBits n).2.data = s.data :=
  readBitsAux_data n 0 s

/-- C7: `peek_bits(n)` returns exactly the value `read_bits(n)` would return,
and the cursor state (byte position, bit position and buffered byte) after
`peek_bits(n)` is identical to the state before it; hence a subsequent
`read_bits(n)` returns the same value. -/
theorem C7_peekBits_readBits (s : BitStream) (n : Nat) :
    (s.peekBits n).1 = (s.readBits n).1 ∧ (s.peekBits n).2 = s := by
  refine ⟨rfl, ?_⟩
  unfold BitStream.peekBits
  have hd := readBits_data s n
  cases s with
  | mk data pos bit_pos cb =>
      dsimp only at hd ⊢
      rw [hd]

/-- C1: the length vector `L = [1, 3, 3, 3, 3]` has Kraft sum
`1/2 + 4·(1/8) = 1`, yet the generator — which left-shifts the running code
only once per length group instead of by the length gap — assigns symbol 0
the bit string `0` (code 0, length 1) and symbol 1 the bit string `010`
(code 2, length 3), so the produced table is not prefix-free. -/
theorem C1_canonical_not_prefix_free :
    kraftSum [1, 3, 3, 3, 3] = 1 ∧
    generateCanonicalHuffmanCodes [1, 3, 3, 3, 3] =
      [(0, 0, 1), (1, 2, 3), (2, 3, 3), (3, 4, 3), (4, 5, 3)] ∧
    isPrefixOfCode 0 1 2 3 = true ∧
    tableIsPrefixFree (generateCanonicalHuffmanCodes [1, 3, 3, 3, 3]) = false := by
  refine ⟨by norm_num [kraftSum], by decide, by decide, by decide⟩

/-- C4, counterexample: the odd-length input `[1, 65, 66]` does not fail —
`decompress_rle` returns the 1-byte output `"A"` and the probe records a
successful outcome. -/
theorem C4_rle_odd_counterexample :
    decompressRle [1, 65, 66] = [65] ∧
    (testDecompression (fun _ => 0) [1, 65, 66] "rle" rleAdapter).success
      = true := by
  refine ⟨by decide, by rfl⟩

lemma rle_dropLast : ∀ (data : List Nat), data.length % 2 = 1 →
    decompressRle data.dropLast = decompressRle data
  | [], h => by simp at h
  | [_], _ => rfl
  | [_, _], h => by simp at h
  | c :: v :: r0 :: rest', h => by
      have ih := rle_dropLast (r0 :: rest') (by
        simp only [List.length_cons] at h ⊢
        omega)
      have hd : (c :: v :: r0 :: rest').dropLast
          = c :: v :: (r0 :: rest').dropLast := rfl
      rw [hd]
      simp only [decompressRle]
      rw [ih]

/-- C4 (amended): RLE decoding of an odd-length input does not fail — the
function is total and the probe outcome is successful — and the unpaired
trailing byte is simply ignored: the output equals the decode of the input
with its last byte dropped. -/
theorem C4_rle_odd_ignores_trailing (data : List Nat)
    (h : data.length % 2 = 1) :
    decompressRle data = decompressRle data.dropLast ∧
    ∀ H : List Nat → ℚ,
      (testDecompression H data "rle" rleAdapter).success = true :=
  ⟨(rle_dropLast data h).symm, fun _ => rfl⟩

/-- C4, witness: the amended statement at the odd-length input
`[1, 65, 66]`. -/
theorem C4_rle_odd_witness :
    ([1, 65, 66] : List Nat).length % 2 = 1 ∧
    (decompressRle [1, 65, 66]
        = decompressRle ([1, 65, 66] : List Nat).dropLast ∧
      ∀ H : List Nat → ℚ,
        (testDecompression H [1, 65, 66] "rle" rleAdapter).success = true) :=
  ⟨by decide, C4_rle_odd_ignores_trailing [1, 65, 66] (by decide)⟩

/-- C5, counterexample: the 4-byte input `[0, 0, 0, 0]` is shorter than the
claimed 16-byte minimum for the standard variant, yet the standard variant
does not fail "too short" — it succeeds with empty output (its own check is
`len(data) < 4`; the 16-byte check lives in the combined `decompress_huffman`
dispatcher). -/
theorem C5_tooShort_counterexample :
    ([0, 0, 0, 0] : List Nat).length < 16 ∧
    huffmanStandard [0, 0, 0, 0] = Except.ok [] ∧
    failsTooShortStd [0, 0, 0, 0] = false := by
  refine ⟨by decide, by rfl, by rfl⟩

/-- C5 (amended): each Huffman variant raises its "too short" error exactly
when the input is shorter than its own header check — 4 bytes for the
standard variant, 2 for the canonical variant, 512 for the simple variant
(at or above the threshold any failure carries a different message). -/
theorem C5_tooShort_thresholds (data : List Nat) :
    failsTooShortStd data = decide (data.length < 4) ∧
    failsTooShortCan data = decide (data.length < 2) ∧
    failsTooShortSimple data = decide (data.length < 512) := by
  refine ⟨?_, ?_, ?_⟩
  · unfold failsTooShortStd huffmanStandard
    by_cases h : data.length < 4
    · rw [if_pos h]
      simp [errMsg, h]
    · rw [if_neg h]
      simp [errMsg, h]
  · unfold failsTooShortCan huffmanCanonical
    by_cases h : data.length < 2
    · rw [if_pos h]
      simp [errMsg, h]
    · rw [if_neg h]
      simp [errMsg, h]
  · unfold failsTooShortSimple huffmanSimple
    by_cases h : data.length < 512
    · rw [if_pos h]
      simp [errMsg, h]
    · rw [if_neg h]
      dsimp only
      by_cases he : (parseSimpleTable 256 0 data []).1.isEmpty
      · rw [if_pos he, decide_eq_false h]
        rfl
      · rw [if_neg he, decide_eq_false h]
        rfl

/-- C8: LZ77-decoding the 13-byte input — flag `0xFF` with the eight
literals `'A'..'H'`, then flag `0x00` with reference bytes
`00 04 04` (offset 4, length 4) — yields the 12 bytes `"ABCDEFGHEFGH"`. -/
theorem C8_lz77_example :
    decompressLz77 [0xFF, 65, 66, 67, 68, 69, 70, 71, 72, 0x00, 0x00, 0x04, 0x04]
      = [65, 66, 67, 68, 69, 70, 71, 72, 69, 70, 71, 72] := by
  decide

/-- C9: on `FF FF FF FF 7F` the shift cap (checked only after accumulating)
lets a fifth group fold in at shift 28, the accumulated value reaches
`2^35 − 1 > 2^32 − 1`, and the 4-byte little-endian conversion fails, so the
decode errors instead of emitting a value. -/
theorem C9_vlq_overflow :
    vlqGroup [0xFF, 0xFF, 0xFF, 0xFF, 0x7F] 0 0 = (2 ^ 35 - 1, []) ∧
    decompressVlq [0xFF, 0xFF, 0xFF, 0xFF, 0x7F]
      = Except.error "int too big to convert" := by
  refine ⟨by decide, by rfl⟩

/-- C10: LZW-decoding the empty blob returns the empty output without
raising (`if not code_stream: return b''`). -/
theorem C10_lzw_empty : decompressLzw [] = Except.ok [] := rfl

/-- C6: whenever the probe records a failed outcome, its decompressed size,
confidence and validation flag are all zeroed — for every entropy function,
input blob and decoder. -/
theorem C6_failed_outcome_zeroed (H : List Nat → ℚ) (data : List Nat)
    (method : String) (decompress : List Nat → Except String (List Nat))
    (h : (testDecompression H data method decompress).success = false) :
    (testDecompression H data method decompress).decompressed_size = 0 ∧
    (testDecompression H data method decompress).confidence = 0 ∧
    (testDecompression H data method decompress).checksum_valid = false := by
  unfold testDecompression at h ⊢
  cases hd : decompress data with
  | ok d =>
      rw [hd] at h
      simp at h
  | error e =>
      exact ⟨rfl, rfl, rfl⟩

/-- C6, witness: the canonical Huffman decoder fails on the empty blob and
the resulting outcome is zeroed. -/
theorem C6_failed_outcome_witness :
    (testDecompression (fun _ => 0) [] "huffman_canonical"
        huffmanCanonical).success = false ∧
    ((testDecompression (fun _ => 0) [] "huffman_canonical"
        huffmanCanonical).decompressed_size = 0 ∧
      (testDecompression (fun _ => 0) [] "huffman_canonical"
        huffmanCanonical).confidence = 0 ∧
      (testDecompression (fun _ => 0) [] "huffman_canonical"
        huffmanCanonical).checksum_valid = false) :=
  ⟨rfl, C6_failed_outcome_zeroed (fun _ => 0) [] "huffman_canonical"
    huffmanCanonical rfl⟩

lemma lexLt_trans {a b c : ℚ × ℚ} (h1 : lexLt a b) (h2 : lexLt b c) :
    lexLt a c := by
  rcases h1 with h1 | ⟨e1, h1⟩ <;> rcases h2 with h2 | ⟨e2, h2⟩
  · exact Or.inl (lt_trans h1 h2)
  · exact Or.inl (by rw [← e2]; exact h1)
  · exact Or.inl (by rw [e1]; exact h2)
  · exact Or.inr ⟨e1.trans e2, lt_trans h1 h2⟩

lemma lexLt_resolve {a b : ℚ × ℚ} (h : ¬ lexLt a b) : lexLt b a ∨ b = a := by
  rcases lt_trichotomy a.1 b.1 with h1 | h1 | h1
  · exact absurd (Or.inl h1) h
  · rcases lt_trichotomy a.2 b.2 with h2 | h2 | h2
    · exact absurd (Or.inr ⟨h1, h2⟩) h
    · exact Or.inr (Prod.ext h1.symm h2.symm)
    · exact Or.inl (Or.inr ⟨h1.symm, h2⟩)
  · exact Or.inl (Or.inl h1)

lemma lexLt_of_not_of_lt {a b c : ℚ × ℚ} (h1 : ¬ lexLt a b)
    (h2 : lexLt a c) : lexLt b c := by
  rcases lexLt_resolve h1 with hba | hba
  · exact lexLt_trans hba h2
  · rw [hba]
    exact h2

/-- Characterization of Python's first-maximum `max` as a left fold: the
fold result occurs in `x :: l`, every element strictly before its position
has a strictly smaller key, and no element after it has a larger key. -/
lemma pyMax_foldl_spec :
    ∀ (l : List DecompressionResult) (x : DecompressionResult),
      ∃ l1 l2, x :: l = l1 ++ (l.foldl pyMaxStep x) :: l2 ∧
        (∀ r ∈ l1, lexLt (resultKey r) (resultKey (l.foldl pyMaxStep x))) ∧
        (∀ r ∈ l2, ¬ lexLt (resultKey (l.foldl pyMaxStep x)) (resultKey r))
  | [], x => ⟨[], [], rfl, by simp, by simp⟩
  | y :: t, x => by
      simp only [List.foldl_cons]
      obtain ⟨l1, l2, heq, hbefore, hafter⟩ := pyMax_foldl_spec t (pyMaxStep x y)
      by_cases hlt : lexLt (resultKey x) (resultKey y)
      · have hstep : pyMaxStep x y = y := if_pos hlt
        rw [hstep] at heq hbefore hafter ⊢
        have hyB : lexLt (resultKey y) (resultKey (t.foldl pyMaxStep y))
            ∨ y = t.foldl pyMaxStep y := by
          cases l1 with
          | nil =>
              rw [List.nil_append] at heq
              injection heq with h1 h2
              exact Or.inr h1
          | cons z l1' =>
              rw [List.cons_append] at heq
              injection heq with h1 h2
              exact Or.inl (hbefore y (by rw [h1]; exact List.mem_cons_self z l1'))
        refine ⟨x :: l1, l2, by rw [List.cons_append, ← heq], ?_, hafter⟩
        intro r hr
        rcases List.mem_cons.mp hr with rfl | hr
        · rcases hyB with hyB | hyB
          · exact lexLt_trans hlt hyB
          · rw [← hyB]
            exact hlt
        · exact hbefore r hr
      · have hstep : pyMaxStep x y = x := if_neg hlt
        rw [hstep] at heq hbefore hafter ⊢
        cases l1 with
        | nil =>
            rw [List.nil_append] at heq
            injection heq with h1 h2
            refine ⟨[], y :: t, by rw [List.nil_append, ← h1], by simp, ?_⟩
            intro r hr
            rcases List.mem_cons.mp hr with rfl | hr
            · rw [← h1]
              exact hlt
            · rw [h2] at hr
              exact hafter r hr
        | cons z l1' =>
            rw [List.cons_append] at heq
            injection heq with h1 h2
            have hxB : lexLt (resultKey x) (resultKey (t.foldl pyMaxStep x)) :=
              hbefore x (by rw [h1]; exact List.mem_cons_self z l1')
            refine ⟨x :: y :: l1', l2,
              by rw [List.cons_append, List.cons_append, ← h2], ?_, hafter⟩
            intro r hr
            rcases List.mem_cons.mp hr with rfl | hr
            · exact hxB
            rcases List.mem_cons.mp hr with rfl | hr
            · exact lexLt_of_not_of_lt hlt hxB
            · exact hbefore r (List.mem_cons_of_mem z hr)

/-- C3: the reported `best_*` fields come from the outcome that is the
lexicographic maximum of `(confidence, compression_ratio)` among outcomes
with `success ∧ checksum_valid`, ties broken in favour of the earlier
position (every strictly earlier qualifying outcome has a strictly smaller
key, no later one a larger key); when no outcome qualifies, `best_method`
is `none` and `best_ratio`, `best_confidence` are 0. -/
theorem C3_best_selection (results : List DecompressionResult) :
    (findBestResult results = none → qualifying results = []) ∧
    (∀ b, findBestResult results = some b →
      ∃ l1 l2, qualifying results = l1 ++ b :: l2 ∧
        (∀ r ∈ l1, lexLt (resultKey r) (resultKey b)) ∧
        (∀ r ∈ l2, ¬ lexLt (resultKey b) (resultKey r))) ∧
    selectBest results =
      (match findBestResult results with
        | none => (none, 0, 0)
        | some b => (some b.method, b.compression_ratio, b.confidence)) := by
  unfold findBestResult selectBest
  cases hq : qualifying results with
  | nil =>
      refine ⟨fun _ => rfl, ?_, rfl⟩
      intro b hb
      simp at hb
  | cons x xs =>
      refine ⟨fun hcontra => by simp at hcontra, ?_, rfl⟩
      intro b hb
      have hb' : xs.foldl pyMaxStep x = b := by injection hb
      obtain ⟨l1, l2, heq, hbefore, hafter⟩ := pyMax_foldl_spec xs x
      rw [hb'] at heq hbefore hafter
      exact ⟨l1, l2, heq, hbefore, hafter⟩

/-- C3, witness: with two qualifying outcomes carrying equal keys, the
earlier one is selected. -/
theorem C3_best_selection_witness :
    findBestResult [sampleOutcomeA, sampleOutcomeB] = some sampleOutcomeA ∧
    (∃ l1 l2,
      qualifying [sampleOutcomeA, sampleOutcomeB] = l1 ++ sampleOutcomeA :: l2 ∧
      (∀ r ∈ l1, lexLt (resultKey r) (resultKey sampleOutcomeA)) ∧
      (∀ r ∈ l2, ¬ lexLt (resultKey sampleOutcomeA) (resultKey r))) :=
  ⟨by decide, (C3_best_selection [sampleOutcomeA, sampleOutcomeB]).2.1
    sampleOutcomeA (by decide)⟩

end CompressionDetector
